import Mathlib

/-!
Verification of `onetab_dedupe.py`, a script that deduplicates the lines of
a OneTab bookmark-export file by the URL part of each line.

Lines are embedded as `List Char`.  The Python string operations used by the
script (`str.strip`, `str.split("|", 1)`) are defined below over `List Char`,
and `deduplicate` is a direct transcription of the Python function, with the
`set` of seen URLs embedded as a `List Line` queried by membership.
The `rich.progress.track` wrapper in the source is a progress display with no
effect on the produced data, so it is omitted.
-/

namespace OneTab

abbrev Line : Type := List Char

/-- The whitespace characters removed by Python's `str.strip()`
(ASCII range; no claim depends on the Unicode space categories). -/
def pySpace (c : Char) : Bool :=
  c = ' ' || c = '\t' || c = '\n' || c = '\x0b' || c = '\x0c' || c = '\r'

/-- Left part of Python `str.strip()`: drop leading whitespace. -/
def lstrip (s : Line) : Line := s.dropWhile pySpace

/-- Right part of Python `str.strip()`: drop trailing whitespace. -/
def rstrip (s : Line) : Line := (s.reverse.dropWhile pySpace).reverse

/-- Python `s.strip()`: drop leading and trailing whitespace. -/
def strip (s : Line) : Line := rstrip (lstrip s)

/-- Python `s.split("|", 1)[0]`: everything before the first `|`
(the whole string when there is no `|`). -/
def splitBarHead (s : Line) : Line := s.takeWhile (fun c => c != '|')

/-- The URL key of a line, as computed at line 74 of the source:
`data.strip().split("|", 1)[0].strip()`. -/
def urlKey (data : Line) : Line := strip (splitBarHead (strip data))

/-- The blank-line test at line 65 of the source: `not data.strip()`. -/
def isBlank (data : Line) : Bool := (strip data).isEmpty

/-- The loop of `deduplicate` (source lines 63-83), with the running set
`url_set` made explicit.  Membership in the Python `set` of strings is
embedded as membership in a list of keys. -/
def dedupeAux (url_set : List Line) : List Line → List Line
  | [] => []
  | data :: rest =>
    if isBlank data then
      data :: dedupeAux url_set rest
    else
      let url := urlKey data
      if url ∈ url_set then
        dedupeAux url_set rest
      else
        data :: dedupeAux (url :: url_set) rest

/-- `deduplicate` (source lines 44-85): the loop started with an empty set. -/
def deduplicate (data_list : List Line) : List Line := dedupeAux [] data_list

/-- The file system visible to the script: each path holds a list of lines,
or nothing when reading that path fails. -/
abbrev FileSystem : Type := String → Option (List Line)

/-- `write_file` (source lines 87-101): overwrite the destination path with
the given lines. -/
def writeFs (fs : FileSystem) (file_path : String) (v : List Line) : FileSystem :=
  fun q => if q = file_path then some v else fs q

/-- The in-place-overwrite notice printed at source line 131. -/
def noticeInPlace : String := "提示: 导出路径为空, 将默认覆盖原文件"

/-- The completion message printed at source line 101. -/
def doneMessage (file_path : String) : String :=
  "处理完成！去重后的文件已保存至: " ++ file_path

/-- The outcome of one run of `main`: the resulting file system, the lines
printed to stdout, and whether the run completed (false when `read_file`
raised and the process aborted). -/
structure RunResult where
  fs : FileSystem
  stdout : List String
  ok : Bool

/-- `main` (source lines 103-138): resolve the destination (defaulting to
`old_path`, with a notice), read, deduplicate, write.  When the read fails
the unhandled exception aborts the run before any write. -/
def mainRun (fs : FileSystem) (old_path : String) (new_arg : Option String) :
    RunResult :=
  let new_path := match new_arg with
    | none => old_path
    | some p => p
  let msgs : List String := match new_arg with
    | none => [noticeInPlace]
    | some _ => []
  match fs old_path with
  | none => ⟨fs, msgs, false⟩
  | some data_list =>
    let output_list := deduplicate data_list
    ⟨writeFs fs new_path output_list, msgs ++ [doneMessage new_path], true⟩

/-- The Boolean test selecting the non-blank lines whose URL key is `k`. -/
def keyPred (k : Line) (d : Line) : Bool := !(isBlank d) && (urlKey d == k)

section ListLemmas

variable {p : Char → Bool}

theorem dropWhile_append_not (hc : p c = false) :
    ∀ a t : List Char, (a ++ c :: t).dropWhile p = a.dropWhile p ++ c :: t := by
  intro a t
  induction a with
  | nil => simp [List.dropWhile_cons, hc]
  | cons x xs ih =>
    by_cases hx : p x
    · simp [List.dropWhile_cons, hx, ih]
    · simp [List.dropWhile_cons, hx]

theorem takeWhile_append_not (hc : p c = false) :
    ∀ a t : List Char, (∀ x ∈ a, p x = true) → (a ++ c :: t).takeWhile p = a := by
  intro a t ha
  induction a with
  | nil => simp [List.takeWhile_cons, hc]
  | cons x xs ih =>
    have hx : p x = true := ha x (by simp)
    simp only [List.cons_append, List.takeWhile_cons, hx, if_true]
    rw [ih (fun y hy => ha y (by simp [hy]))]

theorem dropWhile_idem (l : List Char) : (l.dropWhile p).dropWhile p = l.dropWhile p := by
  induction l with
  | nil => simp
  | cons x xs ih =>
    by_cases hx : p x
    · simp [List.dropWhile_cons, hx, ih]
    · simp [List.dropWhile_cons, hx]

theorem dropWhile_head_false :
    ∀ (l t : List Char) (c : Char), l.dropWhile p = c :: t → p c = false := by
  intro l
  induction l with
  | nil => intro t c h; simp [List.dropWhile] at h
  | cons x xs ih =>
    intro t c h
    by_cases hx : p x
    · exact ih t c (by simpa [List.dropWhile_cons, hx] using h)
    · rw [List.dropWhile_cons, if_neg (by simp [hx])] at h
      cases h
      simpa using hx

theorem dropWhile_concat (l : List Char) (c : Char) :
    (l ++ [c]).dropWhile p = [] ∨ ∃ ys, (l ++ [c]).dropWhile p = ys ++ [c] := by
  induction l with
  | nil =>
    by_cases h : p c
    · left; simp [List.dropWhile_cons, h]
    · right; exact ⟨[], by simp [List.dropWhile_cons, h]⟩
  | cons x xs ih =>
    by_cases h : p x
    · simpa [List.dropWhile_cons, h] using ih
    · right; exact ⟨x :: xs, by simp [List.dropWhile_cons, h]⟩

theorem dropWhile_all_space :
    ∀ l : List Char, (∀ x ∈ l, p x = true) → l.dropWhile p = [] := by
  intro l h
  induction l with
  | nil => simp
  | cons x xs ih =>
    have hx : p x = true := h x (by simp)
    rw [List.dropWhile_cons, if_pos (by simp [hx])]
    exact ih (fun y hy => h y (by simp [hy]))

theorem takeWhile_all (l : List Char) (h : ∀ x ∈ l, p x = true) : l.takeWhile p = l := by
  induction l with
  | nil => simp
  | cons x xs ih =>
    have hx : p x = true := h x (by simp)
    simp only [List.takeWhile_cons, hx, if_true]
    rw [ih (fun y hy => h y (by simp [hy]))]

theorem mem_of_mem_dropWhile {x : Char} :
    ∀ l : List Char, x ∈ l.dropWhile p → x ∈ l := by
  intro l hx
  induction l with
  | nil => simp at hx
  | cons y ys ih =>
    by_cases hy : p y
    · rw [List.dropWhile_cons, if_pos (by simp [hy])] at hx
      exact List.mem_cons_of_mem y (ih hx)
    · rwa [List.dropWhile_cons, if_neg (by simp [hy])] at hx

end ListLemmas

theorem mem_of_mem_strip {x : Char} {s : Line} (hx : x ∈ strip s) : x ∈ s := by
  unfold strip rstrip lstrip at hx
  rw [List.mem_reverse] at hx
  have h1 := mem_of_mem_dropWhile _ hx
  rw [List.mem_reverse] at h1
  exact mem_of_mem_dropWhile _ h1

theorem lstrip_append_bar (a t : Line) : lstrip (a ++ '|' :: t) = lstrip a ++ '|' :: t :=
  dropWhile_append_not (by decide) a t

theorem rstrip_append_bar (a t : Line) : rstrip (a ++ '|' :: t) = a ++ '|' :: rstrip t := by
  unfold rstrip
  rw [List.reverse_append, List.reverse_cons, List.append_assoc, List.singleton_append,
    dropWhile_append_not (by decide) t.reverse (a.reverse)]
  simp

theorem strip_append_bar (a t : Line) : strip (a ++ '|' :: t) = lstrip a ++ '|' :: rstrip t := by
  unfold strip
  rw [lstrip_append_bar, rstrip_append_bar]

theorem strip_lstrip (s : Line) : strip (lstrip s) = strip s := by
  unfold strip lstrip
  rw [dropWhile_idem]

theorem urlKey_append_bar (a t : Line) (h : '|' ∉ a) : urlKey (a ++ '|' :: t) = strip a := by
  unfold urlKey splitBarHead
  rw [strip_append_bar]
  rw [takeWhile_append_not (by decide) (lstrip a) (rstrip t) ?_]
  · exact strip_lstrip a
  · intro x hx
    have hxa : x ∈ a := mem_of_mem_dropWhile _ hx
    have hne : x ≠ '|' := fun he => h (he ▸ hxa)
    simpa using hne

theorem strip_eq_nil_of_space (a : Line) (h : ∀ c ∈ a, pySpace c = true) : strip a = [] := by
  unfold strip lstrip
  rw [dropWhile_all_space a h]
  rfl

theorem rstrip_cons_cases (c : Char) (u : Line) :
    rstrip (c :: u) = [] ∨ ∃ v, rstrip (c :: u) = c :: v := by
  rcases dropWhile_concat (p := pySpace) u.reverse c with h | ⟨ys, h⟩
  · left; simp [rstrip, h]
  · right; exact ⟨ys.reverse, by simp [rstrip, h]⟩

theorem lstrip_strip (s : Line) : lstrip (strip s) = strip s := by
  cases h : lstrip s with
  | nil =>
    have : strip s = [] := by simp [strip, h, rstrip]
    simp [this, lstrip]
  | cons c u =>
    have hc : pySpace c = false := dropWhile_head_false s u c h
    have hs : strip s = rstrip (c :: u) := by rw [strip, h]
    rcases rstrip_cons_cases c u with h2 | ⟨v, h2⟩
    · simp [hs, h2, lstrip]
    · rw [hs, h2]
      simp [lstrip, List.dropWhile_cons, hc]

theorem rstrip_idem (s : Line) : rstrip (rstrip s) = rstrip s := by
  unfold rstrip
  rw [List.reverse_reverse, dropWhile_idem]

theorem strip_idem (s : Line) : strip (strip s) = strip s := by
  conv_lhs => rw [strip]
  rw [lstrip_strip]
  conv_lhs => rw [strip]
  rw [rstrip_idem, ← strip]

theorem urlKey_eq_strip_of_no_bar (s : Line) (h : '|' ∉ s) : urlKey s = strip s := by
  unfold urlKey splitBarHead
  rw [takeWhile_all (strip s) ?_, strip_idem]
  intro x hx
  have hxs : x ∈ s := mem_of_mem_strip hx
  have hne : x ≠ '|' := fun he => h (he ▸ hxs)
  simpa using hne

theorem dedupeAux_sublist (l : List Line) :
    ∀ url_set : List Line, List.Sublist (dedupeAux url_set l) l := by
  induction l with
  | nil => intro s; simp [dedupeAux]
  | cons d rest ih =>
    intro s
    by_cases hb : isBlank d
    · simpa [dedupeAux, hb] using List.Sublist.cons₂ d (ih s)
    · by_cases hm : urlKey d ∈ s
      · simpa [dedupeAux, hb, hm] using List.Sublist.cons d (ih s)
      · simpa [dedupeAux, hb, hm] using List.Sublist.cons₂ d (ih (urlKey d :: s))

theorem dedupeAux_idem (l : List Line) :
    ∀ url_set : List Line, dedupeAux url_set (dedupeAux url_set l) = dedupeAux url_set l := by
  induction l with
  | nil => intro s; simp [dedupeAux]
  | cons d rest ih =>
    intro s
    by_cases hb : isBlank d
    · simp [dedupeAux, hb, ih s]
    · by_cases hm : urlKey d ∈ s
      · simp [dedupeAux, hb, hm, ih s]
      · simp [dedupeAux, hb, hm, ih (urlKey d :: s)]

theorem dedupeAux_filter_blank (l : List Line) :
    ∀ url_set : List Line, (dedupeAux url_set l).filter isBlank = l.filter isBlank := by
  induction l with
  | nil => intro s; simp [dedupeAux]
  | cons d rest ih =>
    intro s
    by_cases hb : isBlank d
    · simp [dedupeAux, hb, List.filter_cons, ih s]
    · by_cases hm : urlKey d ∈ s
      · simp [dedupeAux, hb, hm, List.filter_cons, ih s]
      · simp [dedupeAux, hb, hm, List.filter_cons, ih (urlKey d :: s)]

theorem dedupeAux_filter_key (k : Line) (l : List Line) :
    ∀ url_set : List Line, (dedupeAux url_set l).filter (keyPred k) =
      if k ∈ url_set then [] else (l.filter (keyPred k)).take 1 := by
  induction l with
  | nil => intro s; simp [dedupeAux]
  | cons d rest ih =>
    intro s
    by_cases hb : isBlank d
    · have hp : keyPred k d = false := by simp [keyPred, hb]
      simp [dedupeAux, hb, List.filter_cons, hp, ih s]
    · by_cases hk : urlKey d = k
      · by_cases hm : urlKey d ∈ s
        · have hks : k ∈ s := hk ▸ hm
          have hp : keyPred k d = true := by simp [keyPred, hb, hk]
          simp [dedupeAux, hb, hm, ih s, hks, List.filter_cons, hp]
        · have hks : k ∉ s := fun hx => hm (hk ▸ hx)
          have hp : keyPred k d = true := by simp [keyPred, hb, hk]
          have hmem : k ∈ urlKey d :: s := by simp [hk.symm]
          simp [dedupeAux, hb, hm, List.filter_cons, hp, ih (urlKey d :: s), hmem, hks]
      · have hp : keyPred k d = false := by simp [keyPred, hk]
        have hk2 : ¬ (k = urlKey d) := fun hx => hk hx.symm
        by_cases hm : urlKey d ∈ s
        · simp [dedupeAux, hb, hm, List.filter_cons, hp, ih s]
        · have hmem : (k ∈ urlKey d :: s) = (k ∈ s) := by
            simp [List.mem_cons, hk2]
          simp [dedupeAux, hb, hm, List.filter_cons, hp, ih (urlKey d :: s), hmem]

theorem dedupeAux_keys_nodup (l : List Line) :
    ∀ url_set : List Line,
      (((dedupeAux url_set l).filter (fun d => !(isBlank d))).map urlKey).Nodup ∧
      ∀ d ∈ dedupeAux url_set l, isBlank d = false → urlKey d ∉ url_set := by
  induction l with
  | nil =>
    intro s
    refine ⟨by simp [dedupeAux], ?_⟩
    intro d hd
    simp [dedupeAux] at hd
  | cons d rest ih =>
    intro s
    by_cases hb : isBlank d
    · refine ⟨?_, ?_⟩
      · simpa [dedupeAux, hb, List.filter_cons] using (ih s).1
      · intro e he hne
        rw [show dedupeAux s (d :: rest) = d :: dedupeAux s rest by simp [dedupeAux, hb]] at he
        rcases List.mem_cons.mp he with rfl | he2
        · rw [hb] at hne; cases hne
        · exact (ih s).2 e he2 hne
    · by_cases hm : urlKey d ∈ s
      · refine ⟨?_, ?_⟩
        · simpa [dedupeAux, hb, hm] using (ih s).1
        · intro e he hne
          rw [show dedupeAux s (d :: rest) = dedupeAux s rest by simp [dedupeAux, hb, hm]] at he
          exact (ih s).2 e he hne
      · have hstep : dedupeAux s (d :: rest) = d :: dedupeAux (urlKey d :: s) rest := by
          simp [dedupeAux, hb, hm]
        refine ⟨?_, ?_⟩
        · rw [hstep, List.filter_cons, if_pos (by simp [hb]), List.map_cons, List.nodup_cons]
          refine ⟨?_, (ih (urlKey d :: s)).1⟩
          intro hin
          rcases List.mem_map.mp hin with ⟨e, he, hke⟩
          rcases List.mem_filter.mp he with ⟨he2, hne2⟩
          have : urlKey e ∉ urlKey d :: s :=
            (ih (urlKey d :: s)).2 e he2 (by simpa using hne2)
          exact this (by simp [hke])
        · intro e he hne
          rw [hstep] at he
          rcases List.mem_cons.mp he with rfl | he2
          · exact hm
          · have : urlKey e ∉ urlKey d :: s := (ih (urlKey d :: s)).2 e he2 hne
            exact fun hx => this (List.mem_cons_of_mem _ hx)

example : urlKey ("https://a.com/x | Title | extra".data) = "https://a.com/x".data := by
  decide

example : deduplicate ["https://a.com | A".data, "https://b.com | B".data,
    "https://a.com | A again".data, "".data, "https://b.com | B dup".data]
    = ["https://a.com | A".data, "https://b.com | B".data, "".data] := by
  decide

/-- Claim C1: for every input line list and URL key `k`, the non-blank output
lines whose key is `k` are exactly the first non-blank input line whose key
is `k` (so for occurrences at positions i1 < i2 < ... only the line at i1
survives), and keys are compared by exact, case-sensitive string equality. -/
theorem dedup_first_occurrence (l : List Line) (k : Line) :
    (deduplicate l).filter (keyPred k) = (l.filter (keyPred k)).take 1 := by
  simpa [deduplicate] using dedupeAux_filter_key k l []

/-- Claim C2: the output of `deduplicate` is a subsequence of its input:
no line is modified, added, or reordered, and the length never grows. -/
theorem dedup_sublist (l : List Line) : List.Sublist (deduplicate l) l :=
  dedupeAux_sublist l []

/-- Claim C3: every line that is blank after stripping is kept where it
appeared (the blank lines of the output are exactly those of the input, in
order), and processing a blank line leaves the seen-key set unchanged. -/
theorem dedup_blank_preserved :
    (∀ l : List Line, (deduplicate l).filter isBlank = l.filter isBlank) ∧
    ∀ (url_set : List Line) (d : Line) (rest : List Line), isBlank d = true →
      dedupeAux url_set (d :: rest) = d :: dedupeAux url_set rest := by
  refine ⟨fun l => dedupeAux_filter_blank l [], ?_⟩
  intro s d rest hb
  simp [dedupeAux, hb]

theorem dedup_blank_preserved_witness :
    (deduplicate [" ".data, "a | t".data]).filter isBlank
      = [" ".data, "a | t".data].filter isBlank ∧
    dedupeAux [] (" ".data :: ["a | t".data]) = " ".data :: dedupeAux [] ["a | t".data] :=
  ⟨dedup_blank_preserved.1 [" ".data, "a | t".data],
   dedup_blank_preserved.2 [] (" ".data) ["a | t".data] (by decide)⟩

/-- Claim C4: the URL key of a non-blank line is the stripped portion before
the first `|`; later `|` characters are ignored, and the spec's example line
yields the key `https://a.com/x`. -/
theorem urlKey_splits_on_first_bar :
    (∀ a t : Line, '|' ∉ a → urlKey (a ++ '|' :: t) = strip a) ∧
    urlKey ("https://a.com/x | Title | extra".data) = "https://a.com/x".data := by
  exact ⟨fun a t h => urlKey_append_bar a t h, by decide⟩

theorem urlKey_splits_on_first_bar_witness :
    urlKey ("https://a.com/x ".data ++ '|' :: " Title | extra".data)
      = strip ("https://a.com/x ".data) :=
  urlKey_splits_on_first_bar.1 ("https://a.com/x ".data) (" Title | extra".data) (by decide)

/-- Claim C5: for a line without `|` the key is the whole stripped line, so
two bar-free lines are duplicates exactly when their stripped contents are
equal. -/
theorem urlKey_no_bar_whole_line (s : Line) (h : '|' ∉ s) :
    urlKey s = strip s ∧
    ∀ t : Line, '|' ∉ t → (urlKey s = urlKey t ↔ strip s = strip t) := by
  refine ⟨urlKey_eq_strip_of_no_bar s h, ?_⟩
  intro t ht
  rw [urlKey_eq_strip_of_no_bar s h, urlKey_eq_strip_of_no_bar t ht]

theorem urlKey_no_bar_whole_line_witness :
    urlKey ("https://x.com".data) = strip ("https://x.com".data) ∧
    (urlKey ("https://x.com".data) = urlKey (" https://x.com ".data) ↔
      strip ("https://x.com".data) = strip (" https://x.com ".data)) :=
  ⟨(urlKey_no_bar_whole_line ("https://x.com".data) (by decide)).1,
   (urlKey_no_bar_whole_line ("https://x.com".data) (by decide)).2
     (" https://x.com ".data) (by decide)⟩

/-- Claim C6: `deduplicate` is idempotent. -/
theorem dedup_idempotent (l : List Line) : deduplicate (deduplicate l) = deduplicate l :=
  dedupeAux_idem l []

/-- Claim C7: with the destination argument omitted, `main` writes the
deduplicated result back to the source path and prints the in-place
overwrite notice before the processing messages. -/
theorem main_inplace_default (fs : FileSystem) (old_path : String) (data_list : List Line)
    (h : fs old_path = some data_list) :
    mainRun fs old_path none =
      ⟨writeFs fs old_path (deduplicate data_list),
       [noticeInPlace, doneMessage old_path], true⟩ := by
  simp [mainRun, h]

/-- A concrete one-file file system used to instantiate the `main` theorems. -/
def fsEx : FileSystem := fun q =>
  if q = "onetab.txt" then some ["https://a.com | A".data, "https://a.com | B".data]
  else none

theorem main_inplace_default_witness :
    mainRun fsEx "onetab.txt" none =
      ⟨writeFs fsEx "onetab.txt"
        (deduplicate ["https://a.com | A".data, "https://a.com | B".data]),
       [noticeInPlace, doneMessage "onetab.txt"], true⟩ :=
  main_inplace_default fsEx "onetab.txt"
    ["https://a.com | A".data, "https://a.com | B".data] rfl

/-- Claim C8: a line whose content before its first `|` is only whitespace
gets the empty string as its key, and the empty key deduplicates like any
other: among non-blank lines with empty key only the first survives. -/
theorem empty_key_collapse :
    (∀ a t : Line, (∀ c ∈ a, pySpace c = true) → urlKey (a ++ '|' :: t) = []) ∧
    ∀ l : List Line, (deduplicate l).filter (keyPred []) = (l.filter (keyPred [])).take 1 := by
  constructor
  · intro a t h
    have hb : '|' ∉ a := fun hx => absurd (h '|' hx) (by decide)
    rw [urlKey_append_bar a t hb, strip_eq_nil_of_space a h]
  · intro l
    simpa [deduplicate] using dedupeAux_filter_key [] l []

theorem empty_key_collapse_witness :
    urlKey ([' '] ++ '|' :: " Title".data) = [] ∧
    (deduplicate ["   | Title".data, "  | Other".data]).filter (keyPred []) =
      (["   | Title".data, "  | Other".data].filter (keyPred [])).take 1 :=
  ⟨empty_key_collapse.1 [' '] (" Title".data) (by decide),
   empty_key_collapse.2 ["   | Title".data, "  | Other".data]⟩

/-- Claim C9: when reading the source path fails, the run aborts before any
write: the whole file system (the destination in particular) is unchanged
and the run does not complete. -/
theorem main_read_error_no_write (fs : FileSystem) (old_path : String)
    (new_arg : Option String) (h : fs old_path = none) :
    (mainRun fs old_path new_arg).fs = fs ∧ (mainRun fs old_path new_arg).ok = false := by
  simp [mainRun, h]

/-- A file system on which every read fails. -/
def fsEmpty : FileSystem := fun _ => none

theorem main_read_error_no_write_witness :
    (mainRun fsEmpty "missing.txt" none).fs = fsEmpty ∧
    (mainRun fsEmpty "missing.txt" none).ok = false :=
  main_read_error_no_write fsEmpty "missing.txt" none rfl

/-- Claim C10: in the output of `deduplicate`, the URL keys of the non-blank
lines are pairwise distinct. -/
theorem dedup_keys_pairwise_distinct (l : List Line) :
    List.Pairwise (fun d e => urlKey d ≠ urlKey e)
      ((deduplicate l).filter (fun d => !(isBlank d))) := by
  exact List.pairwise_map.mp (dedupeAux_keys_nodup l []).1

end OneTab
